import Mathlib

/-!
Shallow embedding of the Structure-NBT generator core (palette builder and
minimal NBT writer) of this repository, following `src/flip-flop.py`
(the same builder is duplicated in `camera.py` and `png_to_redstone.py`).

Conventions of the embedding:
* Python byte strings are `List Nat` (each entry a byte value).
* Python `str` is Lean `String`; `s.encode(..)` is `strBytes` (UTF-8).
* Machine-width packing (`struct.pack`) is modelled on `Int` with explicit
  range checks and modular arithmetic, mirroring `struct.error` on overflow.
* Fallible code returns `Except EncErr`.
-/

namespace MC

/-- Tag kind constants (`TAG_End` .. `TAG_Long_Array` in the source; only the
ones the writer supports are needed by name). -/
def TAG_End : Nat := 0

def TAG_Int : Nat := 3

def TAG_String : Nat := 8

def TAG_List : Nat := 9

def TAG_Compound : Nat := 10

/-- The runtime tag values of the source: `IntTag`/plain `int`,
`StringTag`/plain `str`, `ListTag` (with its stored `element_tag_id`), and
`CompoundTag`/plain `dict` (insertion-ordered, hence a list of entries). -/
inductive Tag : Type
  | int (v : Int)
  | str (s : String)
  | list (elementTagId : Nat) (items : List Tag)
  | compound (entries : List (String × Tag))

/-- Errors the writer can raise: `struct.error` (value out of packing range),
`ValueError` (unsupported tag id, or `int()` failing to parse), `TypeError`
(`int()` applied to a non-scalar), `AssertionError` (failed `assert`). -/
inductive EncErr : Type
  | structRange
  | valueError
  | typeError
  | assertionError
deriving DecidableEq, Repr

/-- UTF-8 encoding of one character (what `str.encode('utf-8')` does
per code point). -/
def charUtf8 (c : Char) : List Nat :=
  let n := c.toNat
  if n < 128 then [n]
  else if n < 2048 then [192 + n / 64, 128 + n % 64]
  else if n < 65536 then [224 + n / 4096, 128 + (n / 64) % 64, 128 + n % 64]
  else [240 + n / 262144, 128 + (n / 4096) % 64, 128 + (n / 64) % 64, 128 + n % 64]

/-- `s.encode('utf-8')` as a byte list. -/
def strBytes (s : String) : List Nat :=
  s.data.flatMap charUtf8

/-- `struct.pack('>B', n)`: one unsigned byte; raises `struct.error` when the
value does not fit. -/
def writeByte (n : Nat) : Except EncErr (List Nat) :=
  if n ≤ 255 then Except.ok [n] else Except.error EncErr.structRange

/-- `struct.pack('>h', v)` (used by `_write_short`): big-endian **signed**
16-bit; raises `struct.error` outside `[-32768, 32767]`. -/
def writeShort (v : Int) : Except EncErr (List Nat) :=
  if v < -32768 ∨ 32767 < v then Except.error EncErr.structRange
  else
    let m := (v % 65536).toNat
    Except.ok [m / 256 % 256, m % 256]

/-- `struct.pack('>i', v)` (used by `_write_int`): big-endian signed 32-bit
two's complement; raises `struct.error` outside the `i32` range. -/
def writeIntB (v : Int) : Except EncErr (List Nat) :=
  if v < -2147483648 ∨ 2147483647 < v then Except.error EncErr.structRange
  else
    let m := (v % 4294967296).toNat
    Except.ok [m / 16777216 % 256, m / 65536 % 256, m / 256 % 256, m % 256]

/-- `_write_string_payload`: UTF-8 encode, write the byte length with
`_write_short`, then the raw bytes (no terminator). -/
def writeStringPayload (s : String) : Except EncErr (List Nat) := do
  let data := strBytes s
  let p ← writeShort (data.length : Int)
  return p ++ data

/-- A single-quote character, used by Python `repr` of strings/dict keys. -/
def sq : String := String.singleton (Char.ofNat 39)

mutual
/-- Python `repr` of the tag classes (reached when `str(value)` is applied to
a `ListTag`/`CompoundTag` under a String-kind slot). String escaping of
special characters is not modelled; all content in scope is plain ASCII. -/
def pyRepr : Tag → String
  | Tag.int v => toString v
  | Tag.str s => sq ++ s ++ sq
  | Tag.list _ items => "[" ++ pyReprItems items ++ "]"
  | Tag.compound entries => "\x7b" ++ pyReprEntries entries ++ "\x7d"

def pyReprItems : List Tag → String
  | [] => ""
  | [t] => pyRepr t
  | t :: ts => pyRepr t ++ ", " ++ pyReprItems ts

def pyReprEntries : List (String × Tag) → String
  | [] => ""
  | [(k, v)] => sq ++ k ++ sq ++ ": " ++ pyRepr v
  | (k, v) :: rest => sq ++ k ++ sq ++ ": " ++ pyRepr v ++ ", " ++ pyReprEntries rest
end

/-- Python `str(value)` on a tag value: identity on strings, decimal
rendering of ints, `repr` of the container classes. -/
def pyStr : Tag → String
  | Tag.int v => toString v
  | Tag.str s => s
  | Tag.list i items => pyRepr (Tag.list i items)
  | Tag.compound entries => pyRepr (Tag.compound entries)

/-- Decimal digit value of a character, `none` on a non-digit. -/
def digitVal (c : Char) : Option Nat :=
  if 48 ≤ c.toNat ∧ c.toNat ≤ 57 then some (c.toNat - 48) else none

def digitsValAux : List Char → Nat → Option Nat
  | [], acc => some acc
  | c :: cs, acc =>
      match digitVal c with
      | some d => digitsValAux cs (acc * 10 + d)
      | none => none

/-- Value of a non-empty all-digit character sequence, else `none`. -/
def digitsVal : List Char → Option Nat
  | [] => none
  | cs => digitsValAux cs 0

/-- Python `int(str)` decimal parsing: optional sign, then digits.
(Python additionally strips surrounding whitespace and allows `_` digit
grouping; no string in this program's scope uses either.) -/
def pyParseInt (s : String) : Option Int :=
  match s.data with
  | '-' :: cs => (digitsVal cs).map fun n => -(n : Int)
  | '+' :: cs => (digitsVal cs).map fun n => (n : Int)
  | cs => (digitsVal cs).map fun n => (n : Int)

/-- Python `int(value)` on a tag value: identity on ints, decimal parse of
strings (`ValueError` on failure), `TypeError` on the container classes. -/
def pyInt : Tag → Except EncErr Int
  | Tag.int v => Except.ok v
  | Tag.str s =>
      match pyParseInt s with
      | some n => Except.ok n
      | none => Except.error EncErr.valueError
  | Tag.list _ _ => Except.error EncErr.typeError
  | Tag.compound _ => Except.error EncErr.typeError

/-- `_infer_tag_id`: map a runtime value to its tag id. The `ValueError`
branch of the source is unreachable here because `Tag` covers exactly the
four supported classes. -/
def inferTagId : Tag → Nat
  | Tag.int _ => TAG_Int
  | Tag.str _ => TAG_String
  | Tag.list _ _ => TAG_List
  | Tag.compound _ => TAG_Compound

mutual
/-- `_write_named_tag`: kind byte, length-prefixed name, then the payload. -/
def writeNamedTag (tagId : Nat) (name : String) (v : Tag) : Except EncErr (List Nat) := do
  let b ← writeByte tagId
  let n ← writeStringPayload name
  let p ← writePayload tagId v
  return b ++ n ++ p

/-- `_write_payload`: dispatch on the *declared* tag id. Note the source
coerces with `int(value)` / `str(value)` in the scalar branches, asserts the
container classes in the list/compound branches, and raises `ValueError` on
any other tag id. -/
def writePayload (tagId : Nat) (v : Tag) : Except EncErr (List Nat) :=
  if tagId = TAG_Int then do
    let n ← pyInt v
    writeIntB n
  else if tagId = TAG_String then
    writeStringPayload (pyStr v)
  else if tagId = TAG_List then
    match v with
    | Tag.list elementTagId items => do
        let eb ← writeByte elementTagId
        let cb ← writeIntB (items.length : Int)
        let body ← writeItems elementTagId items
        return eb ++ cb ++ body
    | _ => Except.error EncErr.assertionError
  else if tagId = TAG_Compound then
    match v with
    | Tag.compound entries => do
        let body ← writeEntries entries
        return body ++ [TAG_End]
    | _ => Except.error EncErr.assertionError
  else Except.error EncErr.valueError

/-- The `for item in value:` loop of the list branch. -/
def writeItems (elementTagId : Nat) : List Tag → Except EncErr (List Nat)
  | [] => Except.ok []
  | t :: ts => do
      let h ← writePayload elementTagId t
      let r ← writeItems elementTagId ts
      return h ++ r

/-- The `for k, v in items:` loop of the compound branch; the tag id of each
entry is inferred from its runtime value. -/
def writeEntries : List (String × Tag) → Except EncErr (List Nat)
  | [] => Except.ok []
  | (k, v) :: rest => do
      let h ← writeNamedTag (inferTagId v) k v
      let r ← writeEntries rest
      return h ++ r
end

/-- `write_nbt_file` without compression and before file I/O: the raw bytes
of the root, written as a named Compound with the empty name. -/
def encodeRoot (root : List (String × Tag)) : Except EncErr (List Nat) :=
  writeNamedTag TAG_Compound "" (Tag.compound root)

/-! ## The palette builder (`StructureBuilder` of `flip-flop.py`) -/

/-- Python string comparison: code-point lexicographic on the character
sequences (the semantics of `<` on `str`), as a computable Bool. -/
def charsLt : List Char → List Char → Bool
  | [], [] => false
  | [], _ :: _ => true
  | _ :: _, [] => false
  | a :: as, b :: bs =>
      if a.toNat < b.toNat then true
      else if b.toNat < a.toNat then false
      else charsLt as bs

/-- Python `a < b` on strings. -/
def strLt (a b : String) : Bool := charsLt a.data b.data

/-- Python tuple comparison `p <= q` on `(key, value)` string pairs, the
total order `sorted(properties.items())` sorts by: lexicographic on the
pair, ties broken by the second component. -/
def pairLeB (p q : String × String) : Bool :=
  strLt p.1 q.1 || (!strLt q.1 p.1 && (strLt p.2 q.2 || !strLt q.2 p.2))

def pairLe (p q : String × String) : Prop := pairLeB p q = true

instance : DecidableRel pairLe := fun p q =>
  inferInstanceAs (Decidable (pairLeB p q = true))

/-- `sorted(properties.items())`. -/
def sortPairs (l : List (String × String)) : List (String × String) :=
  List.insertionSort pairLe l

/-- `BlockStateKey`: the dedup key `(name, tuple(sorted(properties)))`. -/
abbrev Key := String × List (String × String)

/-- One `add_block` call's arguments: position, label, attributes (a Python
dict, hence an insertion-ordered association list with unique keys; `None`
and `{}` both become `[]`), optional extra NBT. -/
structure Call where
  x : Int
  y : Int
  z : Int
  name : String
  props : List (String × String)
  nbt : Option Tag

/-- The dedup key computed at the top of `add_block`. -/
def toKey (c : Call) : Key :=
  (c.name, sortPairs c.props)

/-- One palette entry: the label plus the attribute pairs in their original
insertion order (a `Properties` sub-compound is emitted only when the
attribute mapping is non-empty). -/
structure PaletteEntry where
  name : String
  props : List (String × String)
deriving DecidableEq

/-- One entry of the `blocks` list: `pos`, `state` (palette index), and the
optional `nbt` payload. -/
structure Block where
  pos : Int × Int × Int
  state : Nat
  nbt : Option Tag

/-- The mutable state of `StructureBuilder`. The palette-index dict is an
insertion-ordered association list (Python dicts preserve insertion order);
its keys are unique so the order never affects lookups. -/
structure Builder where
  palette : List PaletteEntry
  paletteIndex : List (Key × Nat)
  blocks : List Block
  minX : Int
  minY : Int
  minZ : Int
  maxX : Int
  maxY : Int
  maxZ : Int

/-- Lookup in the palette-index dict. -/
def lookupKey {α β : Type} [DecidableEq α] : List (α × β) → α → Option β
  | [], _ => none
  | (a, b) :: rest, k => if a = k then some b else lookupKey rest k

/-- `StructureBuilder.__init__`: empty lists, sentinel bounds `±10**9`. -/
def initBuilder : Builder :=
  { palette := [], paletteIndex := [], blocks := []
    minX := 1000000000, minY := 1000000000, minZ := 1000000000
    maxX := -1000000000, maxY := -1000000000, maxZ := -1000000000 }

/-- `StructureBuilder.add_block` (including the inlined `_track_bounds`). -/
def addBlock (s : Builder) (c : Call) : Builder :=
  let key := toKey c
  let hit := lookupKey s.paletteIndex key
  { palette :=
      match hit with
      | some _ => s.palette
      | none => s.palette ++ [⟨c.name, c.props⟩]
    paletteIndex :=
      match hit with
      | some _ => s.paletteIndex
      | none => s.paletteIndex ++ [(key, s.palette.length)]
    blocks :=
      s.blocks ++
        [⟨(c.x, c.y, c.z), (match hit with | some i => i | none => s.palette.length), c.nbt⟩]
    minX := min s.minX c.x, minY := min s.minY c.y, minZ := min s.minZ c.z
    maxX := max s.maxX c.x, maxY := max s.maxY c.y, maxZ := max s.maxZ c.z }

/-- Run a sequence of `add_block` calls on a fresh builder. -/
def buildFrom (calls : List Call) : Builder :=
  calls.foldl addBlock initBuilder

/-- `StructureBuilder.size`. -/
def size (s : Builder) : Int × Int × Int :=
  if s.maxX < s.minX then (0, 0, 0)
  else (s.maxX - s.minX + 1, s.maxY - s.minY + 1, s.maxZ - s.minZ + 1)

/-- `StructureBuilder.translate_to_origin`: shift every block by `-min` and
reset the bounds accordingly; no-op on the empty builder. -/
def translate (s : Builder) : Builder :=
  if s.maxX < s.minX then s
  else
    { s with
      blocks := s.blocks.map fun b =>
        { b with pos := (b.pos.1 - s.minX, b.pos.2.1 - s.minY, b.pos.2.2 - s.minZ) }
      minX := 0, minY := 0, minZ := 0
      maxX := s.maxX - s.minX, maxY := s.maxY - s.minY, maxZ := s.maxZ - s.minZ }

/-- Render one palette entry as the compound `add_block` created for it:
`Name`, plus `Properties` only when the attribute dict was non-empty. -/
def paletteEntryTag (e : PaletteEntry) : Tag :=
  Tag.compound
    ([("Name", Tag.str e.name)] ++
      (if e.props = [] then []
       else [("Properties", Tag.compound (e.props.map fun kv => (kv.1, Tag.str kv.2)))]))

/-- Render one blocks-list entry: `pos`, `state`, optional `nbt`. -/
def blockTag (b : Block) : Tag :=
  Tag.compound
    ([("pos", Tag.list TAG_Int [Tag.int b.pos.1, Tag.int b.pos.2.1, Tag.int b.pos.2.2]),
      ("state", Tag.int (b.state : Int))] ++
      (match b.nbt with
       | some t => [("nbt", t)]
       | none => []))

/-- The root compound assembled by `StructureBuilder.build` (after the
translation it performs). -/
def rootTag (dataVersion : Int) (s : Builder) : Tag :=
  Tag.compound
    [("size", Tag.list TAG_Int
        [Tag.int (size s).1, Tag.int (size s).2.1, Tag.int (size s).2.2]),
     ("palette", Tag.list TAG_Compound (s.palette.map paletteEntryTag)),
     ("blocks", Tag.list TAG_Compound (s.blocks.map blockTag)),
     ("entities", Tag.list TAG_Compound []),
     ("DataVersion", Tag.int dataVersion)]

/-- `StructureBuilder.build`: mutates the builder via
`translate_to_origin` and returns the root compound; we return both the
post-call builder state and the result. -/
def build (dataVersion : Int) (s : Builder) : Builder × Tag :=
  let t := translate s
  (t, rootTag dataVersion t)

/-! ## Specification-side helper functions -/

/-- The dedup keys of a call sequence. -/
def keysOf (calls : List Call) : List Key :=
  calls.map toKey

/-- First occurrence of each element, in first-seen order (auxiliary
accumulator form). -/
def firstSeenAux {α : Type} [DecidableEq α] : List α → List α → List α
  | acc, [] => acc
  | acc, k :: ks => if k ∈ acc then firstSeenAux acc ks else firstSeenAux (acc ++ [k]) ks

/-- First occurrence of each element of a list, in first-seen order. -/
def firstSeen {α : Type} [DecidableEq α] (l : List α) : List α :=
  firstSeenAux [] l

/-- Index of the first occurrence of an element in a list (0 when absent,
only used on members). -/
def idxOfK {α : Type} [DecidableEq α] : List α → α → Nat
  | [], _ => 0
  | k :: ks, key => if k = key then 0 else idxOfK ks key + 1

/-- Running minimum, as the builder's `min` folds compute it. -/
def minFold (a : Int) (xs : List Int) : Int :=
  xs.foldl min a

/-- Running maximum, as the builder's `max` folds compute it. -/
def maxFold (a : Int) (xs : List Int) : Int :=
  xs.foldl max a

/-! ## Concrete inputs used by witnesses and counterexamples -/

/-- The end-to-end scenario of the spec (claim C6). -/
def demoCalls : List Call :=
  [⟨0, 0, 0, "stone", [], none⟩,
   ⟨0, 1, 0, "dropper", [("facing", "up")], none⟩,
   ⟨0, 2, 0, "dropper", [("facing", "down")], none⟩]

/-- Two calls whose attribute dicts hold the same pairs in different
insertion order. -/
def callP : Call :=
  ⟨0, 0, 0, "door", [("facing", "north"), ("open", "true")], none⟩

def callQ : Call :=
  ⟨1, 5, 2, "door", [("open", "true"), ("facing", "north")], none⟩

/-- A small sequence with a repeated key (first and third calls agree up to
attribute insertion order). -/
def dupCalls : List Call :=
  [callP, ⟨0, 1, 0, "stone", [], none⟩, callQ]

/-- The same sequence with the calls permuted. -/
def dupCallsPerm : List Call :=
  [⟨0, 1, 0, "stone", [], none⟩, callP, callQ]

/-- A single placement whose x-coordinate exceeds the sentinel `10**9`
(counterexample input for claim C2). -/
def bigCall : Call :=
  ⟨1000000001, 0, 0, "a", [], none⟩

/-- A string of 32768 ASCII characters (counterexample input for C3). -/
def bigString : String :=
  String.mk (List.replicate 32768 'a')

instance : DecidableEq (Except EncErr (List Nat)) := fun a b =>
  match a, b with
  | Except.ok x, Except.ok y =>
      if h : x = y then isTrue (by rw [h]) else isFalse (by simp [h])
  | Except.error x, Except.error y =>
      if h : x = y then isTrue (by rw [h]) else isFalse (by simp [h])
  | Except.ok _, Except.error _ => isFalse (by simp)
  | Except.error _, Except.ok _ => isFalse (by simp)

/-! ## Theorems -/

/-- C9: encoding an empty Compound with root name `""` produces exactly the
four bytes: kind byte 10, name length `0x0000` (two bytes), end marker 0. -/
theorem encode_empty_compound_bytes : encodeRoot [] = Except.ok [10, 0, 0, 0] := by
  simp [encodeRoot, writeNamedTag, writePayload, writeEntries, writeByte, writeStringPayload,
    strBytes, writeShort, TAG_Int, TAG_String, TAG_List, TAG_Compound, TAG_End]
  rfl

/-- C8: the encoder is deterministic — two runs of the embedded encode
function on equal inputs give equal byte sequences (compound ordering is an
insertion-ordered structure, so no iteration-order nondeterminism exists). -/
theorem encode_deterministic (root : List (String × Tag))
    (r₁ r₂ : Except EncErr (List Nat))
    (h₁ : r₁ = encodeRoot root) (h₂ : r₂ = encodeRoot root) : r₁ = r₂ :=
  h₁.trans h₂.symm

/-- Witness for C8 at a concrete document. -/
theorem encode_deterministic_witness :
    encodeRoot [("x", Tag.int 1)] = encodeRoot [("x", Tag.int 1)] :=
  encode_deterministic [("x", Tag.int 1)] _ _ rfl rfl

/-- Counterexample to C4 as stated: a `ListTag` declared with element kind
String but holding an Int element does not fail — it encodes successfully
(the element is coerced with `str()` to the decimal string `"7"`),
producing output bytes. -/
theorem hetero_list_encodes_ok :
    inferTagId (Tag.int 7) ≠ TAG_String ∧
      writePayload TAG_List (Tag.list TAG_String [Tag.int 7]) =
        Except.ok [8, 0, 0, 0, 1, 0, 1, 55] := by
  constructor
  · decide
  · simp [writePayload, writeItems, writeByte, writeIntB, writeStringPayload, strBytes, pyStr,
      charUtf8, TAG_Int, TAG_String, TAG_List, TAG_Compound, writeShort]
    decide

/-- C4 amended: list construction performs no homogeneity check, and the
encoder writes each element under the list's *declared* kind, coercing with
`int()` / `str()`: an Int under a String-kind list encodes as its decimal
string, a numeric string under an Int-kind list encodes as that integer;
the operation fails only when coercion is impossible (`ValueError` on a
non-numeric string under Int kind, `AssertionError` on a non-container
under a container kind) — never with a `HeterogeneousList` error. -/
theorem hetero_list_coercion :
    writePayload TAG_List (Tag.list TAG_String [Tag.int 7]) =
        Except.ok [8, 0, 0, 0, 1, 0, 1, 55] ∧
      writePayload TAG_List (Tag.list TAG_Int [Tag.str "42"]) =
        Except.ok [3, 0, 0, 0, 1, 0, 0, 0, 42] ∧
      writePayload TAG_List (Tag.list TAG_Int [Tag.str "abc"]) =
        Except.error EncErr.valueError ∧
      writePayload TAG_List (Tag.list TAG_Compound [Tag.int 7]) =
        Except.error EncErr.assertionError := by
  refine ⟨?_, ?_, ?_, ?_⟩ <;>
    · simp [writePayload, writeItems, writeByte, writeIntB, writeStringPayload, strBytes,
        pyStr, pyInt, pyParseInt, digitsVal, digitsValAux, digitVal, charUtf8,
        TAG_Int, TAG_String, TAG_List, TAG_Compound, writeShort]
      decide

theorem length_flatMap_replicate_a (n : Nat) :
    ((List.replicate n 'a').flatMap charUtf8).length = n := by
  induction n with
  | zero => rfl
  | succ n ih =>
      have ha : charUtf8 'a' = [97] := rfl
      rw [List.replicate_succ, List.flatMap_cons, List.length_append, ih, ha]
      simp only [List.length_singleton]
      omega

theorem strBytes_bigString_length : (strBytes bigString).length = 32768 :=
  length_flatMap_replicate_a 32768

/-- Counterexample to C3 as stated: `bigString` has a UTF-8 encoding of
32768 bytes — at most 65535 — yet encoding its string payload fails
(`struct.pack('>h', ..)` is a **signed** 16-bit pack and raises on any
length above 32767). -/
theorem string_32768_bytes_fails :
    (strBytes bigString).length ≤ 65535 ∧
      writeStringPayload bigString = Except.error EncErr.structRange := by
  constructor
  · rw [strBytes_bigString_length]; norm_num
  · show (do
        let p ← writeShort ((strBytes bigString).length : Int)
        return p ++ strBytes bigString : Except EncErr (List Nat)) =
      Except.error EncErr.structRange
    rw [strBytes_bigString_length]
    rfl

/-- C3 amended: the encoder writes a string payload as a 2-byte big-endian
byte-length prefix followed by the UTF-8 bytes with no terminator, but the
prefix is packed as a **signed** 16-bit value: the encode succeeds exactly
when the UTF-8 encoding is at most 32767 bytes, and raises (rather than
silently truncating the prefix) for any longer string — in particular for
every string whose encoding exceeds 65535 bytes. -/
theorem string_payload_format (s : String) :
    ((strBytes s).length ≤ 32767 →
        writeStringPayload s =
          Except.ok ([(strBytes s).length / 256, (strBytes s).length % 256] ++ strBytes s)) ∧
      (32767 < (strBytes s).length →
        writeStringPayload s = Except.error EncErr.structRange) := by
  constructor
  · intro h
    show (do
        let p ← writeShort ((strBytes s).length : Int)
        return p ++ strBytes s : Except EncErr (List Nat)) = _
    rw [writeShort, if_neg]
    · have hm : ((((strBytes s).length : Int) % 65536)).toNat = (strBytes s).length := by
        omega
      have hd : (strBytes s).length / 256 % 256 = (strBytes s).length / 256 := by
        apply Nat.mod_eq_of_lt
        have : (strBytes s).length / 256 ≤ 32767 / 256 := Nat.div_le_div_right h
        omega
      simp only [hm, hd]
      rfl
    · push_neg
      constructor <;> omega
  · intro h
    show (do
        let p ← writeShort ((strBytes s).length : Int)
        return p ++ strBytes s : Except EncErr (List Nat)) = _
    rw [writeShort, if_pos]
    · rfl
    · right
      exact_mod_cast h

/-- Witness for C3 (amended) at a concrete short string. -/
theorem string_payload_format_witness :
    (strBytes "ab").length ≤ 32767 ∧
      writeStringPayload "ab" =
        Except.ok ([(strBytes "ab").length / 256, (strBytes "ab").length % 256] ++ strBytes "ab") :=
  ⟨by decide, (string_payload_format "ab").1 (by decide)⟩

theorem subzero_block_map (l : List Block) :
    (l.map fun b => { b with pos := (b.pos.1 - 0, b.pos.2.1 - 0, b.pos.2.2 - 0) }) = l := by
  have hf : (fun b : Block => { b with pos := (b.pos.1 - 0, b.pos.2.1 - 0, b.pos.2.2 - 0) }) = id := by
    funext b
    rcases b with ⟨⟨x, y, z⟩, st, nb⟩
    simp
  rw [hf, List.map_id]

theorem translate_translate (s : Builder) : translate (translate s) = translate s := by
  rcases s with ⟨pal, pidx, blks, mnx, mny, mnz, mxx, mxy, mxz⟩
  by_cases h : mxx < mnx
  · simp [translate, h]
  · have h2 : ¬ (mxx - mnx < (0 : Int)) := by omega
    simp only [translate, if_neg h, if_neg h2]
    rw [List.map_map]
    simp [Function.comp, subzero_block_map]

/-- C5: finalize is idempotent — calling `build` (translate-to-origin plus
size computation) a second time on the already-finalized builder state
yields the same root Document and the same state as calling it once. -/
theorem finalize_idempotent (dataVersion : Int) (s : Builder) :
    (build dataVersion (build dataVersion s).1).2 = (build dataVersion s).2 ∧
      (build dataVersion (build dataVersion s).1).1 = (build dataVersion s).1 := by
  have h := translate_translate s
  exact ⟨by simp [build, h], by simp [build, h]⟩

/-- C6: the end-to-end scenario — building with exactly the three demo
placements and finalizing yields size `(1,3,1)`, a palette of length 3 in
insertion order, and placements with states `0,1,2` at the stated
positions. -/
theorem end_to_end_scenario :
    size (build 3700 (buildFrom demoCalls)).1 = (1, 3, 1) ∧
      (build 3700 (buildFrom demoCalls)).1.palette =
        [⟨"stone", []⟩, ⟨"dropper", [("facing", "up")]⟩, ⟨"dropper", [("facing", "down")]⟩] ∧
      (build 3700 (buildFrom demoCalls)).1.blocks.map Block.state = [0, 1, 2] ∧
      (build 3700 (buildFrom demoCalls)).1.blocks.map Block.pos =
        [(0, 0, 0), (0, 1, 0), (0, 2, 0)] := by
  decide

/-- C10: finalize only moves positions — `translate_to_origin` (and the
`build` that invokes it) leaves the palette list, the palette index map,
every placement's state index and extra-data value unchanged; only the
`pos` fields and the internal bounding box change. -/
theorem finalize_frame (dataVersion : Int) (s : Builder) :
    (build dataVersion s).1 = translate s ∧
      (translate s).palette = s.palette ∧
      (translate s).paletteIndex = s.paletteIndex ∧
      (translate s).blocks.map Block.state = s.blocks.map Block.state ∧
      (translate s).blocks.map Block.nbt = s.blocks.map Block.nbt := by
  refine ⟨rfl, ?_, ?_, ?_, ?_⟩ <;>
    · rw [translate]
      split
      · rfl
      · simp [Function.comp]

/-- Counterexample to C7 as stated: a call with the empty label does not
raise — it appends a palette entry (with empty `Name`) and a placement. -/
theorem empty_label_is_accepted :
    (buildFrom [⟨0, 0, 0, "", [], none⟩]).palette = [⟨"", []⟩] ∧
      (buildFrom [⟨0, 0, 0, "", [], none⟩]).blocks.length = 1 := by
  decide

/-- C7 amended: `add_block` performs no label validation at all — a call
whose label is the empty string is processed like any other: it always
appends exactly one placement, and when its key is unseen it appends a
palette entry whose `Name` is the empty string. -/
theorem add_block_no_label_validation (s : Builder) (c : Call) (h : c.name = "") :
    (addBlock s c).blocks.length = s.blocks.length + 1 ∧
      (lookupKey s.paletteIndex (toKey c) = none →
        (addBlock s c).palette = s.palette ++ [⟨"", c.props⟩]) := by
  constructor
  · simp [addBlock]
  · intro hnone
    simp [addBlock, hnone, h]

/-- Witness for C7 (amended) on the fresh builder. -/
theorem add_block_no_label_validation_witness :
    (addBlock initBuilder ⟨0, 0, 0, "", [], none⟩).blocks.length =
        initBuilder.blocks.length + 1 ∧
      (addBlock initBuilder ⟨0, 0, 0, "", [], none⟩).palette =
        initBuilder.palette ++ [⟨"", []⟩] :=
  ⟨(add_block_no_label_validation initBuilder ⟨0, 0, 0, "", [], none⟩ rfl).1,
    (add_block_no_label_validation initBuilder ⟨0, 0, 0, "", [], none⟩ rfl).2 (by decide)⟩

theorem addBlock_blocks_pos (s : Builder) (c : Call) :
    (addBlock s c).blocks.map Block.pos = s.blocks.map Block.pos ++ [(c.x, c.y, c.z)] := by
  simp [addBlock]

theorem buildFold_pos (calls : List Call) (s : Builder) :
    (calls.foldl addBlock s).blocks.map Block.pos =
      s.blocks.map Block.pos ++ calls.map (fun c => (c.x, c.y, c.z)) := by
  induction calls generalizing s with
  | nil => simp
  | cons c cs ih =>
      show (cs.foldl addBlock (addBlock s c)).blocks.map Block.pos = _
      rw [ih, addBlock_blocks_pos]
      simp

theorem buildFold_minX (calls : List Call) (s : Builder) :
    (calls.foldl addBlock s).minX = minFold s.minX (calls.map Call.x) := by
  induction calls generalizing s with
  | nil => rfl
  | cons c cs ih =>
      show (cs.foldl addBlock (addBlock s c)).minX = _
      rw [ih]
      rfl

theorem buildFold_minY (calls : List Call) (s : Builder) :
    (calls.foldl addBlock s).minY = minFold s.minY (calls.map Call.y) := by
  induction calls generalizing s with
  | nil => rfl
  | cons c cs ih =>
      show (cs.foldl addBlock (addBlock s c)).minY = _
      rw [ih]
      rfl

theorem buildFold_minZ (calls : List Call) (s : Builder) :
    (calls.foldl addBlock s).minZ = minFold s.minZ (calls.map Call.z) := by
  induction calls generalizing s with
  | nil => rfl
  | cons c cs ih =>
      show (cs.foldl addBlock (addBlock s c)).minZ = _
      rw [ih]
      rfl

theorem buildFold_maxX (calls : List Call) (s : Builder) :
    (calls.foldl addBlock s).maxX = maxFold s.maxX (calls.map Call.x) := by
  induction calls generalizing s with
  | nil => rfl
  | cons c cs ih =>
      show (cs.foldl addBlock (addBlock s c)).maxX = _
      rw [ih]
      rfl

theorem buildFold_maxY (calls : List Call) (s : Builder) :
    (calls.foldl addBlock s).maxY = maxFold s.maxY (calls.map Call.y) := by
  induction calls generalizing s with
  | nil => rfl
  | cons c cs ih =>
      show (cs.foldl addBlock (addBlock s c)).maxY = _
      rw [ih]
      rfl

theorem buildFold_maxZ (calls : List Call) (s : Builder) :
    (calls.foldl addBlock s).maxZ = maxFold s.maxZ (calls.map Call.z) := by
  induction calls generalizing s with
  | nil => rfl
  | cons c cs ih =>
      show (cs.foldl addBlock (addBlock s c)).maxZ = _
      rw [ih]
      rfl

theorem minFold_le_init (a : Int) (xs : List Int) : minFold a xs ≤ a := by
  induction xs generalizing a with
  | nil => exact le_refl a
  | cons x xs ih => exact le_trans (ih (min a x)) (min_le_left a x)

theorem minFold_le_mem (a : Int) {x : Int} {xs : List Int} (hx : x ∈ xs) :
    minFold a xs ≤ x := by
  induction xs generalizing a with
  | nil => cases hx
  | cons y ys ih =>
      rcases List.mem_cons.mp hx with h | h
      · subst h
        exact le_trans (minFold_le_init (min a x) ys) (min_le_right a x)
      · exact ih (min a y) h

theorem minFold_attained (a : Int) (xs : List Int) :
    minFold a xs = a ∨ ∃ x ∈ xs, minFold a xs = x := by
  induction xs generalizing a with
  | nil => exact Or.inl rfl
  | cons y ys ih =>
      rcases ih (min a y) with h | ⟨x, hx, hex⟩
      · show minFold (min a y) ys = a ∨ _
        rcases min_cases a y with ⟨hm, _⟩ | ⟨hm, _⟩
        · exact Or.inl (h.trans hm)
        · exact Or.inr ⟨y, List.mem_cons_self y ys, h.trans hm⟩
      · exact Or.inr ⟨x, List.mem_cons_of_mem y hx, hex⟩

theorem maxFold_ge_init (a : Int) (xs : List Int) : a ≤ maxFold a xs := by
  induction xs generalizing a with
  | nil => exact le_refl a
  | cons x xs ih => exact le_trans (le_max_left a x) (ih (max a x))

theorem maxFold_ge_mem (a : Int) {x : Int} {xs : List Int} (hx : x ∈ xs) :
    x ≤ maxFold a xs := by
  induction xs generalizing a with
  | nil => cases hx
  | cons y ys ih =>
      rcases List.mem_cons.mp hx with h | h
      · subst h
        exact le_trans (le_max_right a x) (maxFold_ge_init (max a x) ys)
      · exact ih (max a y) h

/-- C2 amended: for every non-empty placement sequence, after finalize
(translate-to-origin plus size computation) each size component is at least
1 and every stored position lies within `[0, size-1]` componentwise; and
provided every coordinate is at most `10**9` (the builder's sentinel
initial bound), each of the three axes has some placement with
coordinate 0. -/
theorem bounding_box_correct (calls : List Call) (hne : calls ≠ []) :
    (1 ≤ (size (translate (buildFrom calls))).1 ∧
        1 ≤ (size (translate (buildFrom calls))).2.1 ∧
        1 ≤ (size (translate (buildFrom calls))).2.2) ∧
      (∀ bl ∈ (translate (buildFrom calls)).blocks,
        (0 ≤ bl.pos.1 ∧ bl.pos.1 ≤ (size (translate (buildFrom calls))).1 - 1) ∧
          (0 ≤ bl.pos.2.1 ∧ bl.pos.2.1 ≤ (size (translate (buildFrom calls))).2.1 - 1) ∧
          (0 ≤ bl.pos.2.2 ∧ bl.pos.2.2 ≤ (size (translate (buildFrom calls))).2.2 - 1)) ∧
      ((∀ c ∈ calls, c.x ≤ 1000000000 ∧ c.y ≤ 1000000000 ∧ c.z ≤ 1000000000) →
        (∃ bl ∈ (translate (buildFrom calls)).blocks, bl.pos.1 = 0) ∧
          (∃ bl ∈ (translate (buildFrom calls)).blocks, bl.pos.2.1 = 0) ∧
          (∃ bl ∈ (translate (buildFrom calls)).blocks, bl.pos.2.2 = 0)) := by
  obtain ⟨c0, hc0⟩ : ∃ c, c ∈ calls := by
    cases calls with
    | nil => exact absurd rfl hne
    | cons c cs => exact ⟨c, List.mem_cons_self c cs⟩
  have hxm : c0.x ∈ calls.map Call.x := List.mem_map_of_mem Call.x hc0
  have hym : c0.y ∈ calls.map Call.y := List.mem_map_of_mem Call.y hc0
  have hzm : c0.z ∈ calls.map Call.z := List.mem_map_of_mem Call.z hc0
  have hminX : (buildFrom calls).minX = minFold 1000000000 (calls.map Call.x) :=
    buildFold_minX calls initBuilder
  have hminY : (buildFrom calls).minY = minFold 1000000000 (calls.map Call.y) :=
    buildFold_minY calls initBuilder
  have hminZ : (buildFrom calls).minZ = minFold 1000000000 (calls.map Call.z) :=
    buildFold_minZ calls initBuilder
  have hmaxX : (buildFrom calls).maxX = maxFold (-1000000000) (calls.map Call.x) :=
    buildFold_maxX calls initBuilder
  have hmaxY : (buildFrom calls).maxY = maxFold (-1000000000) (calls.map Call.y) :=
    buildFold_maxY calls initBuilder
  have hmaxZ : (buildFrom calls).maxZ = maxFold (-1000000000) (calls.map Call.z) :=
    buildFold_maxZ calls initBuilder
  have hpos : (buildFrom calls).blocks.map Block.pos =
      calls.map (fun c => (c.x, c.y, c.z)) := by
    simpa using buildFold_pos calls initBuilder
  have hleX : (buildFrom calls).minX ≤ (buildFrom calls).maxX := by
    rw [hminX, hmaxX]
    exact le_trans (minFold_le_mem _ hxm) (maxFold_ge_mem _ hxm)
  have hleY : (buildFrom calls).minY ≤ (buildFrom calls).maxY := by
    rw [hminY, hmaxY]
    exact le_trans (minFold_le_mem _ hym) (maxFold_ge_mem _ hym)
  have hleZ : (buildFrom calls).minZ ≤ (buildFrom calls).maxZ := by
    rw [hminZ, hmaxZ]
    exact le_trans (minFold_le_mem _ hzm) (maxFold_ge_mem _ hzm)
  have hguard : ¬ ((buildFrom calls).maxX < (buildFrom calls).minX) := not_lt.mpr hleX
  have htblocks : (translate (buildFrom calls)).blocks =
      (buildFrom calls).blocks.map (fun bl =>
        { bl with pos := (bl.pos.1 - (buildFrom calls).minX,
            bl.pos.2.1 - (buildFrom calls).minY, bl.pos.2.2 - (buildFrom calls).minZ) }) := by
    simp only [translate, if_neg hguard]
  have hsize : size (translate (buildFrom calls)) =
      ((buildFrom calls).maxX - (buildFrom calls).minX + 1,
        (buildFrom calls).maxY - (buildFrom calls).minY + 1,
        (buildFrom calls).maxZ - (buildFrom calls).minZ + 1) := by
    simp only [translate, if_neg hguard, size]
    rw [if_neg (by omega : ¬ ((buildFrom calls).maxX - (buildFrom calls).minX < (0 : Int)))]
    simp
  refine ⟨?_, ?_, ?_⟩
  · rw [hsize]
    exact ⟨by simp; omega, by simp; omega, by simp; omega⟩
  · intro bl hbl
    rw [htblocks] at hbl
    obtain ⟨b0, hb0, rfl⟩ := List.mem_map.mp hbl
    have hmemp : b0.pos ∈ (buildFrom calls).blocks.map Block.pos :=
      List.mem_map_of_mem Block.pos hb0
    rw [hpos] at hmemp
    obtain ⟨c, hc, hcoord⟩ := List.mem_map.mp hmemp
    rcases b0 with ⟨⟨b1, b2, b3⟩, bst, bnbt⟩
    have px : c.x = b1 := congrArg Prod.fst hcoord
    have py : c.y = b2 := congrArg (fun p => p.2.1) hcoord
    have pz : c.z = b3 := congrArg (fun p => p.2.2) hcoord
    have lx := minFold_le_mem (1000000000 : Int) (List.mem_map_of_mem Call.x hc)
    have ly := minFold_le_mem (1000000000 : Int) (List.mem_map_of_mem Call.y hc)
    have lz := minFold_le_mem (1000000000 : Int) (List.mem_map_of_mem Call.z hc)
    have ux := maxFold_ge_mem (-1000000000 : Int) (List.mem_map_of_mem Call.x hc)
    have uy := maxFold_ge_mem (-1000000000 : Int) (List.mem_map_of_mem Call.y hc)
    have uz := maxFold_ge_mem (-1000000000 : Int) (List.mem_map_of_mem Call.z hc)
    rw [← hminX] at lx
    rw [← hminY] at ly
    rw [← hminZ] at lz
    rw [← hmaxX] at ux
    rw [← hmaxY] at uy
    rw [← hmaxZ] at uz
    rw [hsize]
    refine ⟨⟨?_, ?_⟩, ⟨?_, ?_⟩, ⟨?_, ?_⟩⟩ <;>
      · simp only []
        omega
  · intro hbound
    refine ⟨?_, ?_, ?_⟩
    · have hatt : ∃ x ∈ calls.map Call.x, (buildFrom calls).minX = x := by
        rcases minFold_attained 1000000000 (calls.map Call.x) with h | ⟨x, hx, hex⟩
        · have h1 := minFold_le_mem (1000000000 : Int) hxm
          have h2 := (hbound c0 hc0).1
          exact ⟨c0.x, hxm, by rw [hminX, h]; omega⟩
        · exact ⟨x, hx, by rw [hminX, hex]⟩
      obtain ⟨x, hx, hmx⟩ := hatt
      obtain ⟨c1, hc1, hc1x⟩ := List.mem_map.mp hx
      have hcmem : (c1.x, c1.y, c1.z) ∈ calls.map (fun c => (c.x, c.y, c.z)) :=
        List.mem_map_of_mem _ hc1
      rw [← hpos] at hcmem
      obtain ⟨b0, hb0, hb0p⟩ := List.mem_map.mp hcmem
      refine ⟨_, by rw [htblocks]; exact List.mem_map_of_mem _ hb0, ?_⟩
      show b0.pos.1 - (buildFrom calls).minX = 0
      rw [hb0p, hmx]
      show c1.x - x = 0
      omega
    · have hatt : ∃ x ∈ calls.map Call.y, (buildFrom calls).minY = x := by
        rcases minFold_attained 1000000000 (calls.map Call.y) with h | ⟨x, hx, hex⟩
        · have h1 := minFold_le_mem (1000000000 : Int) hym
          have h2 := (hbound c0 hc0).2.1
          exact ⟨c0.y, hym, by rw [hminY, h]; omega⟩
        · exact ⟨x, hx, by rw [hminY, hex]⟩
      obtain ⟨x, hx, hmx⟩ := hatt
      obtain ⟨c1, hc1, hc1x⟩ := List.mem_map.mp hx
      have hcmem : (c1.x, c1.y, c1.z) ∈ calls.map (fun c => (c.x, c.y, c.z)) :=
        List.mem_map_of_mem _ hc1
      rw [← hpos] at hcmem
      obtain ⟨b0, hb0, hb0p⟩ := List.mem_map.mp hcmem
      refine ⟨_, by rw [htblocks]; exact List.mem_map_of_mem _ hb0, ?_⟩
      show b0.pos.2.1 - (buildFrom calls).minY = 0
      rw [hb0p, hmx]
      show c1.y - x = 0
      omega
    · have hatt : ∃ x ∈ calls.map Call.z, (buildFrom calls).minZ = x := by
        rcases minFold_attained 1000000000 (calls.map Call.z) with h | ⟨x, hx, hex⟩
        · have h1 := minFold_le_mem (1000000000 : Int) hzm
          have h2 := (hbound c0 hc0).2.2
          exact ⟨c0.z, hzm, by rw [hminZ, h]; omega⟩
        · exact ⟨x, hx, by rw [hminZ, hex]⟩
      obtain ⟨x, hx, hmx⟩ := hatt
      obtain ⟨c1, hc1, hc1x⟩ := List.mem_map.mp hx
      have hcmem : (c1.x, c1.y, c1.z) ∈ calls.map (fun c => (c.x, c.y, c.z)) :=
        List.mem_map_of_mem _ hc1
      rw [← hpos] at hcmem
      obtain ⟨b0, hb0, hb0p⟩ := List.mem_map.mp hcmem
      refine ⟨_, by rw [htblocks]; exact List.mem_map_of_mem _ hb0, ?_⟩
      show b0.pos.2.2 - (buildFrom calls).minZ = 0
      rw [hb0p, hmx]
      show c1.z - x = 0
      omega

/-- Witness for C2 (amended) at the demo placements. -/
theorem bounding_box_correct_witness :
    (∃ bl ∈ (translate (buildFrom demoCalls)).blocks, bl.pos.1 = 0) ∧
      (∃ bl ∈ (translate (buildFrom demoCalls)).blocks, bl.pos.2.1 = 0) ∧
      (∃ bl ∈ (translate (buildFrom demoCalls)).blocks, bl.pos.2.2 = 0) :=
  (bounding_box_correct demoCalls (List.cons_ne_nil _ _)).2.2 (by decide)

/-- Counterexample to C2 as stated: the non-empty sequence `[bigCall]`
(one placement at `x = 10**9 + 1`) finalizes to a single block whose
x-coordinate is 1, so no placement touches coordinate 0 on the x axis
(the sentinel `min(10**9, x)` is below every coordinate and is therefore
never attained). -/
theorem big_coordinate_breaks_zero_touch :
    (translate (buildFrom [bigCall])).blocks.length = 1 ∧
      ∀ bl ∈ (translate (buildFrom [bigCall])).blocks, bl.pos.1 ≠ 0 := by
  decide


theorem charsLt_irrefl (l : List Char) : charsLt l l = false := by
  induction l with
  | nil => rfl
  | cons a as ih => simp [charsLt, ih]

theorem charsLt_eq_of_not :
    ∀ {a b : List Char}, charsLt a b = false → charsLt b a = false → a = b
  | [], [], _, _ => rfl
  | [], _ :: _, h1, _ => by simp [charsLt] at h1
  | _ :: _, [], _, h2 => by simp [charsLt] at h2
  | x :: as, y :: bs, h1, h2 => by
      by_cases hxy : x.toNat < y.toNat
      · simp [charsLt, hxy] at h1
      · by_cases hyx : y.toNat < x.toNat
        · simp [charsLt, hyx] at h2
        · have hx : x = y := by
            have : x.toNat = y.toNat := by omega
            unfold Char.toNat at this
            exact Char.eq_of_val_eq (UInt32.toNat.inj this)
          subst hx
          simp only [charsLt, if_neg hxy, if_neg hyx] at h1 h2
          rw [charsLt_eq_of_not h1 h2]

theorem charsLt_trans :
    ∀ {a b c : List Char}, charsLt a b = true → charsLt b c = true → charsLt a c = true
  | [], [], _, h1, _ => by simp [charsLt] at h1
  | [], _ :: _, [], _, h2 => by simp [charsLt] at h2
  | [], _ :: _, _ :: _, _, _ => by simp [charsLt]
  | _ :: _, [], _, h1, _ => by simp [charsLt] at h1
  | _ :: _, _ :: _, [], _, h2 => by simp [charsLt] at h2
  | x :: as, y :: bs, z :: cs, h1, h2 => by
      by_cases hxy : x.toNat < y.toNat
      · by_cases hyz : y.toNat < z.toNat
        · have hxz : x.toNat < z.toNat := by omega
          simp [charsLt, hxz]
        · by_cases hzy : z.toNat < y.toNat
          · simp [charsLt, hyz, hzy] at h2
          · have hxz : x.toNat < z.toNat := by omega
            simp [charsLt, hxz]
      · by_cases hyx : y.toNat < x.toNat
        · simp [charsLt, hxy, hyx] at h1
        · by_cases hyz : y.toNat < z.toNat
          · have hxz : x.toNat < z.toNat := by omega
            simp [charsLt, hxz]
          · by_cases hzy : z.toNat < y.toNat
            · simp [charsLt, hyz, hzy] at h2
            · simp only [charsLt, if_neg hxy, if_neg hyx] at h1
              simp only [charsLt, if_neg hyz, if_neg hzy] at h2
              have hxz1 : ¬ x.toNat < z.toNat := by omega
              have hxz2 : ¬ z.toNat < x.toNat := by omega
              simp [charsLt, hxz1, hxz2, charsLt_trans h1 h2]

theorem strLt_irrefl (a : String) : strLt a a = false := charsLt_irrefl a.data

theorem strLt_eq_of_not {a b : String} (h1 : strLt a b = false) (h2 : strLt b a = false) :
    a = b := by
  rcases a with ⟨la⟩
  rcases b with ⟨lb⟩
  have : la = lb := charsLt_eq_of_not h1 h2
  rw [this]

theorem strLt_trans {a b c : String} (h1 : strLt a b = true) (h2 : strLt b c = true) :
    strLt a c = true := charsLt_trans h1 h2

theorem strLt_asymm {a b : String} (h : strLt a b = true) : strLt b a = false := by
  cases hba : strLt b a
  · rfl
  · have := strLt_trans h hba
    rw [strLt_irrefl] at this
    cases this

theorem strLt_cases_of_false {a b : String} (h : strLt a b = false) :
    strLt b a = true ∨ b = a := by
  cases hba : strLt b a
  · exact Or.inr (strLt_eq_of_not hba h)
  · exact Or.inl rfl

theorem strLt_false_of_false_false {p q r : String}
    (h1 : strLt q p = false) (h2 : strLt r q = false) : strLt r p = false := by
  rcases strLt_cases_of_false h1 with hpq | hpq
  · rcases strLt_cases_of_false h2 with hqr | hqr
    · cases hrp : strLt r p
      · rfl
      · have h3 := strLt_trans hrp hpq
        have h4 := strLt_trans hqr h3
        rw [strLt_irrefl] at h4
        cases h4
    · rw [← hqr]
      exact h1
  · rw [← hpq] at h2
    exact h2

theorem strLt_lt_of_lt_of_nltrev {p q r : String}
    (h : strLt p q = true) (h2 : strLt r q = false) : strLt p r = true := by
  rcases strLt_cases_of_false h2 with hqr | hqr
  · exact strLt_trans h hqr
  · rw [← hqr]
    exact h

theorem strLt_lt_of_nlt_of_lt {p q r : String}
    (h : strLt q p = false) (h2 : strLt q r = true) : strLt p r = true := by
  rcases strLt_cases_of_false h with hpq | hpq
  · exact strLt_trans hpq h2
  · rw [hpq]
    exact h2

theorem pairLe_decomp (p q : String × String) :
    pairLe p q ↔
      strLt p.1 q.1 = true ∨
        (strLt q.1 p.1 = false ∧
          (strLt p.2 q.2 = true ∨ strLt q.2 p.2 = false)) := by
  unfold pairLe pairLeB
  simp [Bool.or_eq_true, Bool.and_eq_true, Bool.not_eq_true']

theorem pairLe_total (p q : String × String) : pairLe p q ∨ pairLe q p := by
  rw [pairLe_decomp, pairLe_decomp]
  cases h1 : strLt p.1 q.1
  · cases h2 : strLt q.1 p.1
    · cases h3 : strLt p.2 q.2
      · cases h4 : strLt q.2 p.2
        · exact Or.inl (Or.inr ⟨rfl, Or.inr rfl⟩)
        · exact Or.inr (Or.inr ⟨rfl, Or.inl rfl⟩)
      · exact Or.inl (Or.inr ⟨rfl, Or.inl rfl⟩)
    · exact Or.inr (Or.inl rfl)
  · exact Or.inl (Or.inl rfl)

theorem pairLe_trans {p q r : String × String} (h1 : pairLe p q) (h2 : pairLe q r) :
    pairLe p r := by
  rw [pairLe_decomp] at h1 h2 ⊢
  rcases h1 with h1 | ⟨hf1, s1⟩
  · rcases h2 with h2 | ⟨hf2, _⟩
    · exact Or.inl (strLt_trans h1 h2)
    · exact Or.inl (strLt_lt_of_lt_of_nltrev h1 hf2)
  · rcases h2 with h2 | ⟨hf2, s2⟩
    · exact Or.inl (strLt_lt_of_nlt_of_lt hf1 h2)
    · refine Or.inr ⟨strLt_false_of_false_false hf1 hf2, ?_⟩
      rcases s1 with s1 | s1
      · rcases s2 with s2 | s2
        · exact Or.inl (strLt_trans s1 s2)
        · exact Or.inl (strLt_lt_of_lt_of_nltrev s1 s2)
      · rcases s2 with s2 | s2
        · exact Or.inl (strLt_lt_of_nlt_of_lt s1 s2)
        · exact Or.inr (strLt_false_of_false_false s1 s2)

theorem pairLe_antisymm {p q : String × String} (h1 : pairLe p q) (h2 : pairLe q p) :
    p = q := by
  rw [pairLe_decomp] at h1 h2
  rcases h1 with h1 | ⟨hf1, s1⟩
  · rcases h2 with h2 | ⟨hf2, _⟩
    · rw [strLt_asymm h1] at h2
      cases h2
    · rw [h1] at hf2
      cases hf2
  · rcases h2 with h2 | ⟨hf2, s2⟩
    · rw [h2] at hf1
      cases hf1
    · refine Prod.ext (strLt_eq_of_not hf2 hf1) ?_
      rcases s1 with s1 | s1
      · rcases s2 with s2 | s2
        · rw [strLt_asymm s1] at s2
          cases s2
        · rw [s1] at s2
          cases s2
      · rcases s2 with s2 | s2
        · rw [s2] at s1
          cases s1
        · exact strLt_eq_of_not s2 s1

theorem sortPairs_perm_eq {l₁ l₂ : List (String × String)} (h : l₁.Perm l₂) :
    sortPairs l₁ = sortPairs l₂ := by
  haveI : IsTotal (String × String) pairLe := ⟨pairLe_total⟩
  haveI : IsTrans (String × String) pairLe := ⟨fun _ _ _ hab hbc => pairLe_trans hab hbc⟩
  haveI : IsAntisymm (String × String) pairLe := ⟨fun _ _ hab hba => pairLe_antisymm hab hba⟩
  exact List.eq_of_perm_of_sorted
    ((List.perm_insertionSort pairLe l₁).trans
      (h.trans (List.perm_insertionSort pairLe l₂).symm))
    (List.sorted_insertionSort pairLe l₁)
    (List.sorted_insertionSort pairLe l₂)

section FirstSeenLemmas

variable {α : Type} [DecidableEq α]

theorem firstSeenAux_concat (acc l : List α) (k : α) :
    firstSeenAux acc (l ++ [k]) =
      (if k ∈ firstSeenAux acc l then firstSeenAux acc l else firstSeenAux acc l ++ [k]) := by
  induction l generalizing acc with
  | nil => rfl
  | cons y ys ih =>
      show firstSeenAux acc (y :: (ys ++ [k])) = _
      by_cases hy : y ∈ acc
      · simp only [firstSeenAux, if_pos hy]
        exact ih acc
      · simp only [firstSeenAux, if_neg hy]
        exact ih (acc ++ [y])

theorem mem_firstSeenAux (acc l : List α) (x : α) :
    x ∈ firstSeenAux acc l ↔ x ∈ acc ∨ x ∈ l := by
  induction l generalizing acc with
  | nil => simp [firstSeenAux]
  | cons y ys ih =>
      by_cases hy : y ∈ acc
      · simp only [firstSeenAux, if_pos hy, ih]
        constructor
        · rintro (h | h)
          · exact Or.inl h
          · exact Or.inr (List.mem_cons_of_mem y h)
        · rintro (h | h)
          · exact Or.inl h
          · rcases List.mem_cons.mp h with rfl | h
            · exact Or.inl hy
            · exact Or.inr h
      · simp only [firstSeenAux, if_neg hy, ih]
        simp [List.mem_append, List.mem_cons]
        tauto

theorem nodup_firstSeenAux (acc l : List α) (h : acc.Nodup) :
    (firstSeenAux acc l).Nodup := by
  induction l generalizing acc with
  | nil => exact h
  | cons y ys ih =>
      by_cases hy : y ∈ acc
      · simp only [firstSeenAux, if_pos hy]
        exact ih acc h
      · simp only [firstSeenAux, if_neg hy]
        exact ih (acc ++ [y]) (by simp [List.nodup_append, h, hy])

theorem toFinset_firstSeenAux (acc l : List α) :
    (firstSeenAux acc l).toFinset = acc.toFinset ∪ l.toFinset := by
  ext x
  simp [List.mem_toFinset, mem_firstSeenAux]

theorem length_firstSeen_eq_card (l : List α) :
    (firstSeen l).length = l.toFinset.card := by
  have hn : (firstSeen l).Nodup := nodup_firstSeenAux [] l List.nodup_nil
  have ht : (firstSeen l).toFinset = l.toFinset := by
    rw [firstSeen, toFinset_firstSeenAux]
    simp
  rw [← List.toFinset_card_of_nodup hn, ht]

theorem mem_firstSeen_of_mem {l : List α} {x : α} (h : x ∈ l) : x ∈ firstSeen l :=
  (mem_firstSeenAux [] l x).mpr (Or.inr h)

theorem idxOfK_append_of_mem {l : List α} {x : α} (h : x ∈ l) (l₂ : List α) :
    idxOfK (l ++ l₂) x = idxOfK l x := by
  induction l with
  | nil => cases h
  | cons y ys ih =>
      by_cases hy : y = x
      · simp [idxOfK, hy]
      · rcases List.mem_cons.mp h with rfl | hmem
        · exact absurd rfl hy
        · simp [idxOfK, hy, ih hmem]

theorem idxOfK_append_self {l : List α} {x : α} (h : x ∉ l) :
    idxOfK (l ++ [x]) x = l.length := by
  induction l with
  | nil => simp [idxOfK]
  | cons y ys ih =>
      have hy : y ≠ x := fun hc => h (hc ▸ List.mem_cons_self y ys)
      have hx : x ∉ ys := fun hc => h (List.mem_cons_of_mem y hc)
      simp [idxOfK, hy, ih hx]

theorem lookupKey_concat {β : Type} (m : List (α × β)) (k0 k : α) (n : β) :
    lookupKey (m ++ [(k0, n)]) k =
      (match lookupKey m k with
       | some i => some i
       | none => if k0 = k then some n else none) := by
  induction m with
  | nil => rfl
  | cons p ps ih =>
      by_cases hp : p.1 = k
      · rcases p with ⟨a, b⟩
        simp only [List.cons_append, lookupKey, if_pos hp]
      · rcases p with ⟨a, b⟩
        simp only [List.cons_append, lookupKey, if_neg hp]
        exact ih

end FirstSeenLemmas

theorem firstSeen_concat_pos {l : List Key} {k : Key} (h : k ∈ firstSeen l) :
    firstSeen (l ++ [k]) = firstSeen l := by
  simp only [firstSeen] at h ⊢
  rw [firstSeenAux_concat, if_pos h]

theorem firstSeen_concat_neg {l : List Key} {k : Key} (h : k ∉ firstSeen l) :
    firstSeen (l ++ [k]) = firstSeen l ++ [k] := by
  simp only [firstSeen] at h ⊢
  rw [firstSeenAux_concat, if_neg h]

theorem addBlock_palette_hit {s : Builder} {c : Call} {i : Nat}
    (h : lookupKey s.paletteIndex (toKey c) = some i) :
    (addBlock s c).palette = s.palette := by
  simp [addBlock, h]

theorem addBlock_palette_miss {s : Builder} {c : Call}
    (h : lookupKey s.paletteIndex (toKey c) = none) :
    (addBlock s c).palette = s.palette ++ [⟨c.name, c.props⟩] := by
  simp [addBlock, h]

theorem addBlock_pidx_hit {s : Builder} {c : Call} {i : Nat}
    (h : lookupKey s.paletteIndex (toKey c) = some i) :
    (addBlock s c).paletteIndex = s.paletteIndex := by
  simp [addBlock, h]

theorem addBlock_pidx_miss {s : Builder} {c : Call}
    (h : lookupKey s.paletteIndex (toKey c) = none) :
    (addBlock s c).paletteIndex = s.paletteIndex ++ [(toKey c, s.palette.length)] := by
  simp [addBlock, h]

theorem addBlock_states_hit {s : Builder} {c : Call} {i : Nat}
    (h : lookupKey s.paletteIndex (toKey c) = some i) :
    (addBlock s c).blocks.map Block.state = s.blocks.map Block.state ++ [i] := by
  simp [addBlock, h]

theorem addBlock_states_miss {s : Builder} {c : Call}
    (h : lookupKey s.paletteIndex (toKey c) = none) :
    (addBlock s c).blocks.map Block.state = s.blocks.map Block.state ++ [s.palette.length] := by
  simp [addBlock, h]

theorem buildFrom_inv (calls : List Call) :
    (buildFrom calls).palette.length = (firstSeen (keysOf calls)).length ∧
      (∀ k : Key, lookupKey (buildFrom calls).paletteIndex k =
        (if k ∈ firstSeen (keysOf calls) then some (idxOfK (firstSeen (keysOf calls)) k)
         else none)) ∧
      (buildFrom calls).blocks.map Block.state =
        (keysOf calls).map (fun k => idxOfK (firstSeen (keysOf calls)) k) := by
  induction calls using List.reverseRecOn with
  | nil => exact ⟨rfl, fun k => rfl, rfl⟩
  | append_singleton l c ih =>
      obtain ⟨ih1, ih2, ih3⟩ := ih
      have hb : buildFrom (l ++ [c]) = addBlock (buildFrom l) c := by
        simp [buildFrom]
      have hk : keysOf (l ++ [c]) = keysOf l ++ [toKey c] := by
        simp [keysOf]
      by_cases hmem : toKey c ∈ firstSeen (keysOf l)
      · have hfs : firstSeen (keysOf (l ++ [c])) = firstSeen (keysOf l) := by
          rw [hk, firstSeen_concat_pos hmem]
        have hhit : lookupKey (buildFrom l).paletteIndex (toKey c) =
            some (idxOfK (firstSeen (keysOf l)) (toKey c)) := by
          rw [ih2, if_pos hmem]
        refine ⟨?_, ?_, ?_⟩
        · rw [hb, addBlock_palette_hit hhit, hfs, ih1]
        · intro k
          rw [hb, addBlock_pidx_hit hhit, hfs]
          exact ih2 k
        · rw [hb, addBlock_states_hit hhit, hfs, hk, ih3, List.map_append]
          simp only [List.map_cons, List.map_nil]
      · have hfs : firstSeen (keysOf (l ++ [c])) = firstSeen (keysOf l) ++ [toKey c] := by
          rw [hk, firstSeen_concat_neg hmem]
        have hhit : lookupKey (buildFrom l).paletteIndex (toKey c) = none := by
          rw [ih2, if_neg hmem]
        refine ⟨?_, ?_, ?_⟩
        · rw [hb, addBlock_palette_miss hhit, hfs]
          simp only [List.length_append, List.length_singleton, ih1]
        · intro k
          rw [hb, addBlock_pidx_miss hhit, hfs, lookupKey_concat, ih2 k]
          by_cases hkfs : k ∈ firstSeen (keysOf l)
          · rw [if_pos hkfs, if_pos (List.mem_append_left _ hkfs),
              idxOfK_append_of_mem hkfs]
          · rw [if_neg hkfs]
            by_cases hkc : toKey c = k
            · subst hkc
              show (if toKey c = toKey c then some (buildFrom l).palette.length else none) = _
              rw [if_pos rfl,
                if_pos (List.mem_append_right _ (List.mem_singleton_self _)),
                idxOfK_append_self hkfs, ih1]
            · show (if toKey c = k then some (buildFrom l).palette.length else none) = _
              rw [if_neg hkc, if_neg (by
                intro hc
                rcases List.mem_append.mp hc with h | h
                · exact hkfs h
                · exact hkc (List.mem_singleton.mp h).symm)]
        · rw [hb, addBlock_states_miss hhit, hfs, hk, ih3, List.map_append]
          have hcongr : (keysOf l).map (fun k => idxOfK (firstSeen (keysOf l)) k) =
              (keysOf l).map (fun k => idxOfK (firstSeen (keysOf l) ++ [toKey c]) k) := by
            apply List.map_congr_left
            intro a ha
            rw [idxOfK_append_of_mem (mem_firstSeen_of_mem ha)]
          rw [← hcongr]
          have hlast : idxOfK (firstSeen (keysOf l) ++ [toKey c]) (toKey c) =
              (firstSeen (keysOf l)).length := idxOfK_append_self hmem
          simp only [List.map_cons, List.map_nil, hlast, ih1]

/-- C1: the dedup invariant — after any sequence of `add_block` calls the
palette length equals the number of distinct `(label, sorted attributes)`
keys among the calls (hence it is invariant under permuting the calls);
the key is invariant under the insertion order of the attribute pairs; and
every placement's state is the first-seen-order index of its key. -/
theorem dedup_invariant (calls : List Call) :
    (buildFrom calls).palette.length = (keysOf calls).toFinset.card ∧
      (∀ calls₂ : List Call, (keysOf calls₂).Perm (keysOf calls) →
        (buildFrom calls₂).palette.length = (buildFrom calls).palette.length) ∧
      (∀ c c₂ : Call, c.name = c₂.name → c.props.Perm c₂.props → toKey c = toKey c₂) ∧
      (buildFrom calls).blocks.map Block.state =
        (keysOf calls).map (fun k => idxOfK (firstSeen (keysOf calls)) k) ∧
      (∀ i j : Nat, (keysOf calls)[i]? = (keysOf calls)[j]? →
        ((buildFrom calls).blocks.map Block.state)[i]? =
          ((buildFrom calls).blocks.map Block.state)[j]?) := by
  obtain ⟨i1, i2, i3⟩ := buildFrom_inv calls
  refine ⟨?_, ?_, ?_, i3, ?_⟩
  · rw [i1, length_firstSeen_eq_card]
  · intro cs hp
    rw [(buildFrom_inv cs).1, length_firstSeen_eq_card,
      List.toFinset_eq_of_perm _ _ hp, ← length_firstSeen_eq_card, ← i1]
  · intro c c₂ hn hpp
    show (c.name, sortPairs c.props) = (c₂.name, sortPairs c₂.props)
    rw [hn, sortPairs_perm_eq hpp]
  · intro i j hij
    rw [i3, List.getElem?_map, List.getElem?_map, hij]

theorem dedup_invariant_witness :
    (buildFrom dupCalls).palette.length = (keysOf dupCalls).toFinset.card ∧
      (buildFrom dupCallsPerm).palette.length = (buildFrom dupCalls).palette.length ∧
      toKey callP = toKey callQ ∧
      ((buildFrom dupCalls).blocks.map Block.state)[0]? =
        ((buildFrom dupCalls).blocks.map Block.state)[2]? :=
  ⟨(dedup_invariant dupCalls).1,
    (dedup_invariant dupCalls).2.1 dupCallsPerm (by decide),
    (dedup_invariant dupCalls).2.2.1 callP callQ rfl
      (List.Perm.swap ("open", "true") ("facing", "north") []),
    (dedup_invariant dupCalls).2.2.2.2 0 2 (by decide)⟩

end MC
